import Mathlib

/-!
Verification of the systemgo daemon against its specification.

The Go sources are shallowly embedded: byte buffers become `List Char`,
Go maps become association lists or functions, `*Unit` identity becomes the
unit's registry name (the daemon's `units` map is keyed by name, so names
are unique keys), and fallible operations return `Except`/`Option`.
Unbounded Go recursion is given explicit fuel; every theorem that relies on
termination also proves the fuel never runs out.
-/

/-! ## The bounded log buffer (`system/log.go`)

`Log` wraps a `bytes.Buffer` of fixed logical capacity `BUFFER_SIZE` and a
`bytes.Reader` snapshot for sequential reads.  The buffer is modelled as a
`List Char` together with its capacity; the snapshot reader is an
`Option (List Char)` holding the unread remainder of the snapshot. -/

def BUFFER_SIZE : Nat := 10000

/-- The deferred `l.buffer.ReadString('\n')` of `Log.Write`: discard from the
head through the next line terminator inclusive.  `bytes.Buffer.ReadString`
consumes everything and reports an error (false = `io.EOF`) when no
terminator occurs. -/
def readStringNL : List Char → List Char × Bool
  | [] => ([], false)
  | c :: rest => if c = '\n' then (rest, true) else readStringNL rest

/-- Model of one `Log.Write` call from `system/log.go`.  `C` is `l.Cap()`
as read at entry to this write (every `Cap()` read inside one call
precedes the `buffer.Write` that could reallocate), `buf` the current
contents, `b` the incoming bytes.  Returns the new contents and whether
the write succeeded (no error).  The three branches mirror the source:
direct append when it fits; reset-and-keep-tail when the incoming write
is at least the capacity; otherwise discard `len(b) - Cap + Len` bytes
from the head and append.  In the two overflow branches the deferred
`ReadString('\n')` then restores line integrity.  This is the
content-and-error projection of a single step of the stateful model
`logWriteSt` below (`logWriteSt_agrees`); it does not track that
`bytes.Buffer` may hand the NEXT write a larger capacity. -/
def logWrite (C : Nat) (buf b : List Char) : List Char × Bool :=
  if buf.length + b.length ≤ C then (buf ++ b, true)
  else if b.length ≥ C then readStringNL (b.drop (b.length - C))
  else readStringNL ((buf.drop (buf.length + b.length - C)) ++ b)

/-- The read-relevant state of a `Log`: buffer contents plus the pending
`bytes.Reader` snapshot (`none` when no snapshot is active). -/
structure LogState where
  buffer : List Char
  reader : Option (List Char)
deriving DecidableEq, Repr

/-- Model of `Log.Read` from `system/log.go`, reading into a destination of size `k`.
If no snapshot is active one is taken from the buffer (`bytes.NewReader` of
`buffer.Bytes()`, which does not consume the buffer).  `bytes.Reader.Read`
returns `io.EOF` on an empty snapshot; otherwise it copies
`min k remaining` bytes.  The deferred block converts a successful read
that drains the snapshot into an end-of-stream signal and clears the
snapshot.  Returns (bytes read, end-of-stream?, new state). -/
def logRead (st : LogState) (k : Nat) : List Char × Bool × LogState :=
  let snap := match st.reader with
    | some r => r
    | none => st.buffer
  if snap.length = 0 then ([], true, ⟨st.buffer, some snap⟩)
  else
    let n := min k snap.length
    let rest := snap.drop n
    if rest.length = 0 then (snap.take n, true, ⟨st.buffer, none⟩)
    else (snap.take n, false, ⟨st.buffer, some rest⟩)

/-- The full state of the `bytes.Buffer` underlying a `Log`: the unread
contents `b.buf[b.off:]`, the read offset `b.off`, and the slice capacity
`cap(b.buf)` — which `Log.Cap()` reports and `Log.Write` compares
against.  The capacity is NOT constant: `bytes.Buffer` reallocates when a
write does not fit behind the offset. -/
structure GoBuffer where
  content : List Char
  off : Nat
  cap : Nat
deriving DecidableEq, Repr

/-- Model of `bytes.Buffer.Write` (current Go implementation; since the
repository's 2016-era Go, only the grown capacity's exact size has
changed, not that this branch reallocates).  In order: `tryGrowByReslice`
(the write fits behind the offset, `n ≤ cap − len(buf)` with
`len(buf) = off + Len`); `grow`, which resets an empty buffer with
nonzero offset, retries the reslice, slides contents down when
`n + m ≤ cap/2` (capacity kept), and otherwise reallocates via
`growSlice(buf[off:], off+n)`, making the capacity
`max (m + off + n) (2*(cap − off))` — permanently larger.  The nil-buffer
small-allocation path cannot occur (`NewBuffer` always hands a non-nil
slice). -/
def bufWrite (b : GoBuffer) (p : List Char) : GoBuffer :=
  let n := p.length
  if n ≤ b.cap - (b.off + b.content.length) then ⟨b.content ++ p, b.off, b.cap⟩
  else
    let b0 := if b.content.length = 0 ∧ b.off ≠ 0 then (⟨[], 0, b.cap⟩ : GoBuffer) else b
    if n ≤ b0.cap - (b0.off + b0.content.length) then ⟨b0.content ++ p, b0.off, b0.cap⟩
    else
      let m := b0.content.length
      let c := b0.cap
      if n + m ≤ c / 2 then ⟨b0.content ++ p, 0, c⟩
      else ⟨b0.content ++ p, 0, max (m + b0.off + n) (2 * (c - b0.off))⟩

/-- Model of `bytes.Buffer.Read` into a destination of size `k`: an empty
buffer is reset and reports end-of-file (unless `k = 0`); otherwise
`min k Len` bytes are consumed, advancing the offset.  Returns (state,
bytes read, no-error?). -/
def bufRead (b : GoBuffer) (k : Nat) : GoBuffer × Nat × Bool :=
  if b.content.length = 0 then (⟨[], 0, b.cap⟩, 0, decide (k = 0))
  else
    let n := min k b.content.length
    (⟨b.content.drop n, b.off + n, b.cap⟩, n, true)

/-- Model of `bytes.Buffer.ReadString('\n')` on the full buffer state:
consume through the next line terminator, advancing the offset; when no
terminator occurs everything is consumed and `io.EOF` reported. -/
def bufReadStringNL (b : GoBuffer) : GoBuffer × Bool :=
  let r := readStringNL b.content
  (⟨r.1, b.off + (b.content.length - r.1.length), b.cap⟩, r.2)

/-- Model of `Log.Write` over the full `bytes.Buffer` state, including the
capacity evolution that `logWrite` abstracts away.  The branch thresholds
read `l.Len()` and `l.Cap()` of the current state; all those reads happen
before `buffer.Write` can reallocate, so within one call the entry
capacity governs, but the state handed to the NEXT write may carry a
larger capacity. -/
def logWriteSt (b : GoBuffer) (p : List Char) : GoBuffer × Bool :=
  if b.content.length + p.length ≤ b.cap then (bufWrite b p, true)
  else if p.length ≥ b.cap then
    bufReadStringNL (bufWrite ⟨[], 0, b.cap⟩ (p.drop (p.length - b.cap)))
  else
    let r := bufRead b (b.content.length + p.length - b.cap)
    if r.2.2 = false then (r.1, false)
    else bufReadStringNL (bufWrite r.1 p)

/-- A sequence of `Log.Write` calls threaded through the buffer state.
Returns the final state and whether every write returned without
error. -/
def logWriteSeq (b : GoBuffer) : List (List Char) → GoBuffer × Bool
  | [] => (b, true)
  | p :: rest =>
    let r := logWriteSt b p
    let r2 := logWriteSeq r.1 rest
    (r2.1, r.2 && r2.2)

/-! ## Unit-name support and registry loading (`system/log.go` daemon)

File lookup is modelled by a function from paths to filesystem entries; a
regular file carries one bit saying whether `Define` parses it
successfully (the parser itself is an external collaborator). -/

/-- Helper for `filepath.Ext`: scan the name right-to-left, stopping at a path
separator; the extension starts at the last dot.  First argument is the
reversed character list, second is the accumulator of characters already
scanned. -/
def goExtAux : List Char → List Char → List Char
  | [], _ => []
  | c :: rest, acc =>
    if c = '/' then []
    else if c = '.' then c :: acc
    else goExtAux rest (c :: acc)

/-- Model of `filepath.Ext(name)`: the suffix of `name` from its final dot, empty if
the last path component has no dot. -/
def goExt (s : String) : String := ⟨goExtAux s.data.reverse []⟩

/-- The `supported` map of unit-file suffixes from the source. -/
def supportedSuffixes : List (String × Bool) :=
  [(".service", true), (".target", true), (".mount", false), (".socket", false)]

/-- Model of `SupportedSuffix`: a missing key yields the Go zero value `false`, so
unrecognized suffixes and recognized-but-unsupported ones coincide. -/
def SupportedSuffix (suffix : String) : Bool :=
  (List.lookup suffix supportedSuffixes).getD false

/-- Model of `Supported(filename)` from the source. -/
def Supported (filename : String) : Bool := SupportedSuffix (goExt filename)

/-- A filesystem entry as seen by `Daemon.load`: nothing at the path, a
directory, or a regular file whose definition does (`true`) or does not
(`false`) parse. -/
inductive FsEntry where
  | absent : FsEntry
  | dir : FsEntry
  | file : Bool → FsEntry
deriving DecidableEq, Repr

/-- The error values of the `system` package used by the embedded
operations (`ErrNotFound`, `ErrUnknownType`, `ErrIsDir`,
`ErrNotImplemented`, and a definition-parse failure). -/
inductive SysErr where
  | notFound : SysErr
  | unknownType : SysErr
  | isDir : SysErr
  | notImplemented : SysErr
  | defineFail : SysErr
deriving DecidableEq, Repr

/-- Equality of `Except` results is decidable; this lets concrete runs of
the embedded operations be checked by evaluation. -/
instance {ε α : Type} [DecidableEq ε] [DecidableEq α] : DecidableEq (Except ε α) :=
  fun a b =>
    match a, b with
    | .ok x, .ok y =>
      if h : x = y then isTrue (by rw [h])
      else isFalse (by intro hc; cases hc; exact h rfl)
    | .error x, .error y =>
      if h : x = y then isTrue (by rw [h])
      else isFalse (by intro hc; cases hc; exact h rfl)
    | .ok _, .error _ => isFalse (fun hc => Except.noConfusion hc)
    | .error _, .ok _ => isFalse (fun hc => Except.noConfusion hc)

/-- Model of `filepath.IsAbs`: the path begins with a separator. -/
def isAbs (name : String) : Bool :=
  match name.data with
  | [] => false
  | c :: _ => c = '/'

/-- The candidate paths `Daemon.load` opens, in search order: the name
itself when absolute, otherwise each configured path joined with the
name. -/
def candidates (paths : List String) (name : String) : List String :=
  if isAbs name then [name] else paths.map (fun p => p ++ "/" ++ name)

/-- The path loop of `Daemon.load`: a nonexistent path is skipped, a
directory fails with `ErrIsDir`, a file that fails to parse leaves the
unit in the `Error` load state and returns the parse error, and a parsed
file returns the winning path with the unit `Loaded`.  When every
candidate is missing the loop falls through to `ErrNotFound`. -/
def loadLoop (fs : String → FsEntry) : List String → Except SysErr String
  | [] => .error .notFound
  | p :: rest =>
    match fs p with
    | .absent => loadLoop fs rest
    | .dir => .error .isDir
    | .file true => .ok p
    | .file false => .error .defineFail

/-- Model of `Daemon.load` from `system/log.go`: reject unsupported names before any
path is consulted, then run the search loop.  On success the result is the
path the definition was loaded from. -/
def load (fs : String → FsEntry) (paths : List String) (name : String) : Except SysErr String :=
  if Supported name = false then .error .unknownType
  else loadLoop fs (candidates paths name)

/-- Model of `strings.HasSuffix` at the character-list level. -/
def hasSuffix (s suffix : String) : Bool := List.isSuffixOf suffix.data s.data

/-- Model of `strings.TrimSuffix`: drop one trailing occurrence of `suffix`. -/
def trimSuffix (s suffix : String) : String :=
  if hasSuffix s suffix then ⟨s.data.take (s.data.length - suffix.data.length)⟩ else s

/-- Model of `Daemon.newUnit` from `system/log.go`, restricted to its effect on the
`units` name index.  Unit identity is an abstract id `uid`; the map is an
association list where a later insertion shadows an earlier one, matching
Go map assignment.  The unit is indexed under `name`, and additionally
under the suffix-trimmed alias exactly when `name` ends in `.service`. -/
def newUnit (units : List (String × Nat)) (name : String) (uid : Nat) : List (String × Nat) :=
  let units1 := (name, uid) :: units
  if hasSuffix name (".service") then (trimSuffix name (".service"), uid) :: units1 else units1

/-- Model of `Daemon.Unit`: pure lookup in the `units` index (`ErrNotFound` is
modelled by `none`). -/
def sysUnit (units : List (String × Nat)) (name : String) : Option Nat :=
  List.lookup name units

/-- Model of `Daemon.IsEnabled` from `system/log.go`: the body is commented out; it
ignores the registry and the name and returns `(-1, ErrNotImplemented)`. -/
def IsEnabled (units : List (String × Nat)) (name : String) : Int × SysErr :=
  (-1, .notImplemented)

/-! ## The ordering graph (`system/daemon.go`)

`Daemon.order` receives the transaction's units (a map name to `*Unit`,
modelled as a list of records with unique names), builds the
predecessor map `g.before`, and runs a DFS.  `graph.traverse` carries the
`visited` (in-progress) and `ordering` (finished, in output order) state;
the cycle error accumulates the chain of unit names exactly as the
`fmt.Errorf` wrapping does.  The Go recursion is bounded by fuel; `order`
passes enough fuel that it is never exhausted (proved below). -/

/-- A unit as seen by `Daemon.order`: its registry name and its declared
`After()`/`Before()` name lists. -/
structure GUnit where
  name : String
  after : List String
  before : List String
deriving DecidableEq, Repr

/-- The names of the units in the transaction (the key set of the Go
map). -/
def unitNames (units : List GUnit) : List String := units.map GUnit.name

/-- The row `g.before[v]` built by `Daemon.order`: the names of the units
that must run before `v`.  A name `d` is included when `v` declares
`after d` and `d` is a unit of the transaction, or when a transaction unit
named `d` declares `before v`; the Go map keyed by predecessor name
deduplicates. -/
def preds (units : List GUnit) (v : GUnit) : List String :=
  ((v.after.filter (fun d => (unitNames units).contains d)) ++
    (units.filter (fun w => w.before.contains v.name)).map GUnit.name).dedup

/-- The row of `g.before` looked up by unit name (names are unique map keys in the
daemon, so this determines the unit). -/
def predsOf (units : List GUnit) (n : String) : List String :=
  match units.find? (fun w => w.name == n) with
  | some v => preds units v
  | none => []

/-- The declared runs-before edge relation restricted to the transaction:
`gEdge units a b` means `a` must run before `b`. -/
def gEdge (units : List GUnit) (a b : String) : Prop := a ∈ predsOf units b

/-- Errors of the embedded DFS: a dependency cycle carrying the chain of
unit names accumulated by the `fmt.Errorf` wrapping (`errBlank` is the
empty chain), or fuel exhaustion (an artifact of the embedding, proved
unreachable for the fuel `order` supplies). -/
inductive TErr where
  | cycle : List String → TErr
  | fuelOut : TErr
deriving DecidableEq, Repr

/-- The loop `for name, dep := range g.before[u]` of `graph.traverse`:
recurse into each predecessor, wrapping any error with the predecessor's
name exactly as the source's `fmt.Errorf` does (an `errBlank` from a
revisited in-progress node becomes the one-element chain). -/
def runDeps (f : List String → String → Except TErr (List String)) :
    List String → List String → Except TErr (List String)
  | ordering, [] => .ok ordering
  | ordering, d :: rest =>
    match f ordering d with
    | .error (.cycle e) => .error (.cycle (d :: e))
    | .error .fuelOut => .error .fuelOut
    | .ok ord => runDeps f ord rest

/-- Model of `graph.traverse` from `system/daemon.go`: an already-ordered node is
skipped, an in-progress node signals a cycle (`errBlank`), otherwise the
node is marked in-progress, its predecessors are traversed, and on success
the node is appended to the ordering (guarded, as in the source, by a
final not-yet-ordered check). -/
def Graph.traverse (P : String → List String) :
    Nat → List String → List String → String → Except TErr (List String)
  | 0, _, _, _ => .error .fuelOut
  | fuel+1, visited, ordering, u =>
    if u ∈ ordering then .ok ordering
    else if u ∈ visited then .error (.cycle [])
    else
      match runDeps (fun ord d => Graph.traverse P fuel (u :: visited) ord d)
          ordering (P u) with
      | .error e => .error e
      | .ok ord => .ok (if u ∈ ord then ord else ord ++ [u])

/-- The loop of `Daemon.order` over the transaction's units: each unit is
traversed from an empty in-progress set; an error is wrapped with the
unit's name (`"Dependency cycle determined: ... depends on ..."`). -/
def orderLoop (P : String → List String) (fuel : Nat) :
    List GUnit → List String → Except TErr (List String)
  | [], ordering => .ok ordering
  | u :: rest, ordering =>
    match Graph.traverse P fuel [] ordering u.name with
    | .error (.cycle e) => .error (.cycle (u.name :: e))
    | .error .fuelOut => .error .fuelOut
    | .ok ord => orderLoop P fuel rest ord

/-- Model of `Daemon.order` from `system/daemon.go`: build `g.before` and run the
DFS over every unit of the transaction.  (The source's third loop, which
fills the units' `requires` hash, does not influence the ordering and is
omitted.) -/
def Daemon.order (units : List GUnit) : Except TErr (List String) :=
  orderLoop (predsOf units) (units.length + 1) units []

/-- Model of `Daemon.Start` from `system/daemon.go`, after dependency resolution:
on a successful `order` every unit of the returned ordering is started (in
that order); on an ordering error `Start` returns before any unit's
`Start` is invoked.  Result: (error, units whose `Start` was invoked). -/
def Daemon.Start (units : List GUnit) : Option TErr × List String :=
  match Daemon.order units with
  | .ok ord => (none, ord)
  | .error e => (some e, [])

/-- The DFS ordering invariant: the output has no duplicates, mentions
only transaction units, and lists every predecessor of a listed unit
before that unit (`List.Sublist [d, v]` is strict precedence in a
duplicate-free list). -/
def OrdInv (units : List GUnit) (ord : List String) : Prop :=
  ord.Nodup ∧ (∀ x ∈ ord, x ∈ unitNames units) ∧
    ∀ v ∈ ord, ∀ d ∈ predsOf units v, List.Sublist [d, v] ord

/-! ## Transactions and `Daemon.Isolate` (`system/log.go` daemon)

`Daemon.Isolate` builds a start transaction for the requested names and
then walks `sys.Units()`, appending a stop job for every unit without a
job in `tr.unmerged`.  The `transaction` type and its `add` method are not
part of the given sources, so `add` is modelled from the specification's
merge rule; `Isolate` itself follows the source.  The registry is
modelled as already loaded: `Get` is a name lookup. -/

/-- The job operation types (`jobType` constants of the source). -/
inductive JobType where
  | start : JobType
  | stop : JobType
  | restart : JobType
  | reload : JobType
deriving DecidableEq, Repr

/-- A unit as seen by `Isolate`: name, whether it is currently active, and
its declared `requires`/`wants` dependency names. -/
structure IUnit where
  name : String
  active : Bool
  requires : List String
  wants : List String
deriving DecidableEq, Repr

/-- A transaction's `unmerged` job set: unit name to (job type,
mandatory), an association list keyed by unit name. -/
abbrev Tx : Type := List (String × JobType × Bool)

/-- Model of `Daemon.Get` with the registry modelled as fully loaded: look the name
up among the known units. -/
def regGet (reg : List IUnit) (n : String) : Option IUnit :=
  reg.find? (fun u => u.name == n)

/-- Transaction errors: a job-type conflict, a required dependency that
cannot be resolved, a requested name that cannot be resolved, or fuel
exhaustion of the embedded recursion. -/
inductive TxErr where
  | conflict : TxErr
  | depFail : TxErr
  | notFound : TxErr
  | noFuel : TxErr
deriving DecidableEq, Repr

/-- The loop over a unit's `requires` when its job is first inserted:
each required name must resolve (`DependencyFailure` otherwise) and is
added through `f` as a mandatory job. -/
def addRequires (get : String → Option IUnit) (f : IUnit → Tx → Except TxErr Tx) :
    List String → Tx → Except TxErr Tx
  | [], tx => .ok tx
  | r :: rest, tx =>
    match get r with
    | none => .error .depFail
    | some ru =>
      match f ru tx with
      | .error e => .error e
      | .ok tx' => addRequires get f rest tx'

/-- The loop over a unit's `wants`: resolution or merge failure is logged
only, never propagated. -/
def addWants (get : String → Option IUnit) (f : IUnit → Tx → Except TxErr Tx) :
    List String → Tx → Tx
  | [], tx => tx
  | w :: rest, tx =>
    match get w with
    | none => addWants get f rest tx
    | some wu =>
      match f wu tx with
      | .error _ => addWants get f rest tx
      | .ok tx' => addWants get f rest tx'

/-- Modelled from the spec: the transaction merge rule `add(type, unit,
requested-by, mandatory, matters)` of section 4.4 (the `transaction` type
itself is not among the given sources).  If the unit has no job yet the
job is inserted and the unit's `requires` are added as mandatory jobs
(failure propagating as `DependencyFailure`) and its `wants` as
best-effort jobs; an identical existing job is a no-op; a conflicting
existing job is replaced when the new job is mandatory and the existing
one is not, and otherwise the add fails with a transaction conflict. -/
def txAdd (reg : List IUnit) : Nat → JobType → Bool → IUnit → Tx → Except TxErr Tx
  | 0, _, _, _, _ => .error .noFuel
  | fuel+1, typ, mandatory, u, tx =>
    match List.lookup u.name tx with
    | some (t, m) =>
      if t = typ then .ok tx
      else if mandatory && !m then
        .ok (tx.map (fun e => if e.1 = u.name then (u.name, typ, mandatory) else e))
      else .error .conflict
    | none =>
      match addRequires (regGet reg) (fun v tx2 => txAdd reg fuel typ true v tx2)
          u.requires ((u.name, typ, mandatory) :: tx) with
      | .error e => .error e
      | .ok tx2 =>
        .ok (addWants (regGet reg) (fun v tx3 => txAdd reg fuel typ false v tx3) u.wants tx2)

/-- The loop of `Daemon.newTransaction`: resolve each requested name with
`Get` and add it as a mandatory job of the requested type. -/
def newTransactionLoop (reg : List IUnit) (typ : JobType) :
    List String → Tx → Except TxErr Tx
  | [], tx => .ok tx
  | n :: rest, tx =>
    match regGet reg n with
    | none => .error .notFound
    | some u =>
      match txAdd reg (reg.length + 1) typ true u tx with
      | .error e => .error e
      | .ok tx' => newTransactionLoop reg typ rest tx'

/-- Model of `Daemon.newTransaction` from `system/log.go`. -/
def newTransaction (reg : List IUnit) (typ : JobType) (names : List String) :
    Except TxErr Tx :=
  newTransactionLoop reg typ names []

/-- The loop of `Daemon.Isolate` over `sys.Units()`: a unit that already
has a job in `tr.unmerged` is skipped; every other unit — the source does
not check `Active()` — gets a mandatory stop job. -/
def isolateStops (reg : List IUnit) : Tx → List IUnit → Except TxErr Tx
  | tx, [] => .ok tx
  | tx, u :: rest =>
    if (List.lookup u.name tx).isSome then isolateStops reg tx rest
    else
      match txAdd reg (reg.length + 1) .stop true u tx with
      | .error e => .error e
      | .ok tx' => isolateStops reg tx' rest

/-- Model of `Daemon.Isolate` from `system/log.go`, up to the point where the built
transaction would run: a start transaction for `names` plus the stop jobs
appended by the loop over all known units. -/
def Isolate (reg : List IUnit) (names : List String) : Except TxErr Tx :=
  match newTransaction reg .start names with
  | .error e => .error e
  | .ok tx => isolateStops reg tx reg

/-! ## Theorems: the log buffer -/

/-- Discarding through the next line terminator never lengthens the
buffer. -/
theorem readStringNL_length_le (l : List Char) : (readStringNL l).1.length ≤ l.length := by
  induction l with
  | nil => simp [readStringNL]
  | cons c rest ih =>
    by_cases h : c = '\n'
    · simp [readStringNL, h]
    · simp only [readStringNL, if_neg h]
      exact Nat.le_trans ih (Nat.le_succ _)

/-- After one `Log.Write` the contents are at most the capacity read at
entry to that write, in all three branches and with no assumption on the
prior contents.  This per-write bound does NOT give the spec's sequence
invariant: `l.Cap()` itself grows across writes, so the bound drifts —
see `logWrite_capacity_creep`. -/
theorem logWrite_length_le (C : Nat) (buf b : List Char) :
    ((logWrite C buf b).1).length ≤ C := by
  unfold logWrite
  by_cases h1 : buf.length + b.length ≤ C
  · simpa [h1] using h1
  · by_cases h2 : b.length ≥ C
    · simp only [if_neg h1, if_pos h2]
      refine Nat.le_trans (readStringNL_length_le _) ?_
      simp only [List.length_drop]
      omega
    · simp only [if_neg h1, if_neg h2]
      refine Nat.le_trans (readStringNL_length_le _) ?_
      simp only [List.length_append, List.length_drop]
      omega

/-- C4: on a log of capacity 20, writing the line `0123456789` and then
the line `ABCDEFGHIJ` (11 bytes each) leaves exactly the second line in
the buffer: the second write evicts 2 bytes from the head and the
deferred read-through-newline then drops the rest of the first line. -/
theorem logWrite_roundtrip :
    logWrite 20 [] ("0123456789\n").data = (("0123456789\n").data, true) ∧
    logWrite 20 ("0123456789\n").data ("ABCDEFGHIJ\n").data =
      (("ABCDEFGHIJ\n").data, true) := by
  constructor
  · decide
  · decide

/-- Whatever growth path `bytes.Buffer.Write` takes, the contents end up
with the written bytes appended. -/
theorem bufWrite_content (b : GoBuffer) (p : List Char) :
    (bufWrite b p).content = b.content ++ p := by
  unfold bufWrite
  dsimp only
  split_ifs <;> simp_all [List.length_eq_zero]

/-- One step of the stateful write model produces exactly the contents
and error flag of `logWrite` at the capacity read on entry: `logWrite` is
the content projection of `logWriteSt`, so the per-write theorems above
(in particular the C4 trace) are faithful to the stateful buffer. -/
theorem logWriteSt_agrees (b : GoBuffer) (p : List Char) :
    (logWriteSt b p).1.content = (logWrite b.cap b.content p).1 ∧
    (logWriteSt b p).2 = (logWrite b.cap b.content p).2 := by
  unfold logWriteSt logWrite
  by_cases h1 : b.content.length + p.length ≤ b.cap
  · simp [h1, bufWrite_content]
  · simp only [if_neg h1]
    by_cases h2 : p.length ≥ b.cap
    · simp only [if_pos h2, bufReadStringNL, bufWrite_content]
      constructor <;> rfl
    · simp only [if_neg h2]
      have hne : ¬ b.content.length = 0 := by omega
      have hk : min (b.content.length + p.length - b.cap) b.content.length =
          b.content.length + p.length - b.cap := by omega
      simp only [bufRead, if_neg hne, hk]
      constructor <;> simp [bufReadStringNL, bufWrite_content]

/-- C5 at the failing input: the spec's invariant "buffer content never
exceeds C bytes" is violated by the program.  On a `Log` of capacity 10,
writing the 9-byte line `12345678\n`, then the 2-byte line `x\n`, then 15
plain bytes returns without error from every write, yet leaves 17 bytes
of content — more than the capacity 10.  The second write's head eviction
forces `bytes.Buffer.grow` down its reallocation path (the reslice and
slide-down conditions are unsatisfiable there), permanently raising
`l.Cap()` from 10 to 18, so the third write is admitted as a direct
append against the grown capacity.  This contradicts the claim, the
spec's Log invariant, and the source's own comments ("Maximum number of
bytes kept if log buffer", "Keeps up to 10000 bytes of data
in-memory"). -/
theorem logWrite_capacity_creep :
    (logWriteSeq ⟨[], 0, 10⟩
      [("12345678\n").data, ("x\n").data, ("aaaaaaaaaaaaaaa").data]).2 = true ∧
    (logWriteSeq ⟨[], 0, 10⟩
      [("12345678\n").data, ("x\n").data, ("aaaaaaaaaaaaaaa").data]).1.content.length
      = 17 ∧
    ¬ (logWriteSeq ⟨[], 0, 10⟩
      [("12345678\n").data, ("x\n").data, ("aaaaaaaaaaaaaaa").data]).1.content.length
      ≤ 10 ∧
    (logWriteSt ⟨[], 0, 10⟩ ("12345678\n").data).1.cap = 10 ∧
    (logWriteSt (logWriteSt ⟨[], 0, 10⟩ ("12345678\n").data).1 ("x\n").data).1.cap
      = 18 := by
  refine ⟨by decide, by decide, by decide, by decide, by decide⟩

/-- C6 counterexample: with buffer contents `a\n` and no pending
snapshot, a first `Log.Read` returns the whole contents together with the
end-of-stream signal and clears the snapshot; a second `Log.Read` with no
intervening write returns the same two bytes again — not zero bytes as
the claim states. -/
theorem logRead_redelivery_cex :
    logRead ⟨['a', '\n'], none⟩ 8 = (['a', '\n'], true, ⟨['a', '\n'], none⟩) ∧
    (logRead (logRead ⟨['a', '\n'], none⟩ 8).2.2 8).1 = ['a', '\n'] ∧
    (logRead (logRead ⟨['a', '\n'], none⟩ 8).2.2 8).1 ≠ [] := by
  refine ⟨by decide, by decide, by decide⟩

/-- C6 amended: once the snapshot is exhausted and the end-of-stream
signal delivered, a `Log.Read` with no intervening write takes a fresh
snapshot of the unchanged, nonempty buffer and delivers its whole
contents again with the end-of-stream signal — and leaves the state ready
to do the same once more.  (Zero bytes come back only for an empty
buffer.) -/
theorem logRead_fresh_snapshot (buf : List Char) (k : Nat)
    (hne : buf ≠ []) (hk : buf.length ≤ k) :
    logRead ⟨buf, none⟩ k = (buf, true, ⟨buf, none⟩) ∧
    logRead (logRead ⟨buf, none⟩ k).2.2 k = (buf, true, ⟨buf, none⟩) := by
  have hlen : ¬ buf.length = 0 := by simpa [List.length_eq_zero] using hne
  have hmin : min k buf.length = buf.length := Nat.min_eq_right hk
  have h1 : logRead ⟨buf, none⟩ k = (buf, true, ⟨buf, none⟩) := by
    simp [logRead, hlen, hmin, List.take_of_length_le (Nat.le_refl _)]
  exact ⟨h1, by rw [h1]; exact h1⟩

/-- C6 amended, instantiated: the two-byte buffer `a\n` is delivered in
full, with end-of-stream, by each of two successive reads. -/
theorem logRead_fresh_snapshot_witness :
    (['a', '\n'] ≠ ([] : List Char)) ∧ (['a', '\n'] : List Char).length ≤ 8 ∧
    (logRead ⟨['a', '\n'], none⟩ 8 = (['a', '\n'], true, ⟨['a', '\n'], none⟩) ∧
      logRead (logRead ⟨['a', '\n'], none⟩ 8).2.2 8 =
        (['a', '\n'], true, ⟨['a', '\n'], none⟩)) :=
  ⟨by decide, by decide, logRead_fresh_snapshot ['a', '\n'] 8 (by decide) (by decide)⟩

/-! ## Theorems: name support, loading, aliasing, IsEnabled -/

/-- When every candidate path is missing the search loop falls through to
`ErrNotFound`. -/
theorem loadLoop_all_absent (fs : String → FsEntry) :
    ∀ cs : List String, (∀ p ∈ cs, fs p = .absent) → loadLoop fs cs = .error .notFound := by
  intro cs
  induction cs with
  | nil => intro _; rfl
  | cons p rest ih =>
    intro h
    have hp : fs p = .absent := h p (by simp)
    simp only [loadLoop, hp]
    exact ih (fun q hq => h q (by simp [hq]))

/-- Candidate paths where nothing exists are skipped by the search
loop. -/
theorem loadLoop_skip_absent (fs : String → FsEntry) :
    ∀ front : List String, (∀ q ∈ front, fs q = .absent) →
      ∀ tail : List String, loadLoop fs (front ++ tail) = loadLoop fs tail := by
  intro front
  induction front with
  | nil => intro _ tail; rfl
  | cons q qs ih =>
    intro h tail
    have hq : fs q = .absent := h q (by simp)
    simp only [List.cons_append, loadLoop, hq]
    exact ih (fun r hr => h r (by simp [hr])) tail

/-- C7: a name whose extension is not a supported unit kind fails with
`ErrUnknownType` for every filesystem — no path is consulted — and a name
with a supported extension for which no candidate path exists fails with
`ErrNotFound`. -/
theorem load_unsupported_or_absent (paths : List String) (name : String) :
    (Supported name = false →
      ∀ fs : String → FsEntry, load fs paths name = .error .unknownType) ∧
    (Supported name = true →
      ∀ fs : String → FsEntry, (∀ p ∈ candidates paths name, fs p = .absent) →
        load fs paths name = .error .notFound) := by
  constructor
  · intro h fs
    simp [load, h]
  · intro h fs habs
    have hs : ¬ Supported name = false := by simp [h]
    simp only [load, if_neg hs]
    exact loadLoop_all_absent fs _ habs

/-- C7 instantiated: the recognized-but-unsupported `a.mount`, the
unrecognized `a.qqq`, and the supported-but-missing `a.service` on an
empty filesystem. -/
theorem load_unsupported_or_absent_witness :
    load (fun _ => FsEntry.absent) ["/etc/systemd/system"] ("a.mount") =
      .error .unknownType ∧
    load (fun _ => FsEntry.absent) ["/etc/systemd/system"] ("a.qqq") =
      .error .unknownType ∧
    load (fun _ => FsEntry.absent) ["/etc/systemd/system"] ("a.service") =
      .error .notFound :=
  ⟨(load_unsupported_or_absent ["/etc/systemd/system"] ("a.mount")).1 (by decide) _,
    (load_unsupported_or_absent ["/etc/systemd/system"] ("a.qqq")).1 (by decide) _,
    (load_unsupported_or_absent ["/etc/systemd/system"] ("a.service")).2 (by decide) _
      (fun _ _ => rfl)⟩

/-- C8 counterexample: with a directory sitting at the first candidate
path and a valid definition at the second, `load` fails with `ErrIsDir`
instead of passing the directory over and loading from the second path,
contradicting the claim that the first path holding a matching
non-directory file wins. -/
theorem load_dir_blocks_later_path :
    load (fun p => if p = "/a/foo.service" then FsEntry.dir
        else if p = "/b/foo.service" then FsEntry.file true else FsEntry.absent)
      ["/a", "/b"] ("foo.service") = .error .isDir ∧
    load (fun p => if p = "/a/foo.service" then FsEntry.dir
        else if p = "/b/foo.service" then FsEntry.file true else FsEntry.absent)
      ["/a", "/b"] ("foo.service") ≠ .ok ("/b/foo.service") := by
  refine ⟨by decide, by decide⟩

/-- C8 amended: `load` passes over exactly those candidate paths where
nothing exists; the first candidate holding any entry decides the
outcome — a directory fails with `ErrIsDir`, a parsing file loads from
that path, a non-parsing file fails with the definition error.  In
particular a definition on a later path is found whenever all earlier
candidates are absent. -/
theorem load_first_present_decides (fs : String → FsEntry) (paths : List String)
    (name : String) (front : List String) (p : String) (rest : List String)
    (hsup : Supported name = true)
    (hsplit : candidates paths name = front ++ p :: rest)
    (hfront : ∀ q ∈ front, fs q = .absent) :
    (fs p = .dir → load fs paths name = .error .isDir) ∧
    (fs p = .file true → load fs paths name = .ok p) ∧
    (fs p = .file false → load fs paths name = .error .defineFail) := by
  have hs : ¬ Supported name = false := by simp [hsup]
  have hload : load fs paths name = loadLoop fs (front ++ p :: rest) := by
    simp only [load, if_neg hs, hsplit]
  rw [hload, loadLoop_skip_absent fs front hfront (p :: rest)]
  refine ⟨fun h => by simp [loadLoop, h], fun h => by simp [loadLoop, h],
    fun h => by simp [loadLoop, h]⟩

/-- C8 amended, instantiated: the first candidate is absent and the
definition at the second candidate is loaded from there. -/
theorem load_first_present_decides_witness :
    Supported ("foo.service") = true ∧
    candidates ["/a", "/b"] ("foo.service") =
      ["/a/foo.service"] ++ "/b/foo.service" :: [] ∧
    load (fun p => if p = "/b/foo.service" then FsEntry.file true else FsEntry.absent)
      ["/a", "/b"] ("foo.service") = .ok ("/b/foo.service") :=
  ⟨by decide, by decide,
    (load_first_present_decides
        (fun p => if p = "/b/foo.service" then FsEntry.file true else FsEntry.absent)
        ["/a", "/b"] ("foo.service") ["/a/foo.service"] ("/b/foo.service") []
        (by decide) (by decide) (by decide)).2.1 (by decide)⟩

/-- C9 counterexample: a unit registered under `foo.target` — a name with
a recognized suffix — is retrievable under its full name but not under
the suffix-trimmed alias `foo`: `newUnit` only aliases `.service`
names. -/
theorem newUnit_target_no_alias :
    sysUnit (newUnit [] ("foo.target") 0) ("foo.target") = some 0 ∧
    sysUnit (newUnit [] ("foo.target") 0) ("foo") = none := by
  refine ⟨by decide, by decide⟩

/-- C9 amended: a unit registered or loaded under a name ending in
`.service` is indexed both under the full name and under the
suffix-trimmed alias, and both lookups return the same unit identity;
names with other suffixes (such as `.target`) get no alias. -/
theorem newUnit_service_alias (units : List (String × Nat)) (name : String) (uid : Nat)
    (h : hasSuffix name (".service") = true) :
    sysUnit (newUnit units name uid) name = some uid ∧
    sysUnit (newUnit units name uid) (trimSuffix name (".service")) = some uid := by
  unfold newUnit sysUnit
  simp only [h, if_true]
  constructor
  · by_cases hc : name = trimSuffix name (".service")
    · have hbeq : (name == trimSuffix name (".service")) = true := by
        rw [← hc]; exact beq_self_eq_true name
      simp only [List.lookup, hbeq]
    · have hbeq : (name == trimSuffix name (".service")) = false := by simp [hc]
      simp only [List.lookup, hbeq, beq_self_eq_true]
  · simp only [List.lookup, beq_self_eq_true]

/-- C9 amended, instantiated at `foo.service`. -/
theorem newUnit_service_alias_witness :
    hasSuffix ("foo.service") (".service") = true ∧
    (sysUnit (newUnit [] ("foo.service") 7) ("foo.service") = some 7 ∧
      sysUnit (newUnit [] ("foo.service") 7) (trimSuffix ("foo.service") (".service")) =
        some 7) :=
  ⟨by decide, newUnit_service_alias [] ("foo.service") 7 (by decide)⟩

/-- C10: `Daemon.IsEnabled` fails with `ErrNotImplemented` for every
registry state and every name; the registry is never consulted and no
enable state is reported (the state slot carries the invalid sentinel
`-1`). -/
theorem isEnabled_not_implemented :
    ∀ (units : List (String × Nat)) (name : String),
      IsEnabled units name = (-1, SysErr.notImplemented) :=
  fun _ _ => rfl

/-! ## Theorems: cycle detection and Isolate -/

/-- C2: when unit `A` declares `after B` and unit `B` declares `after A`,
starting both in one transaction fails with the dependency-cycle error
whose chain names both `A` and `B`, and no unit is started: the
started-units component of `Daemon.Start` is empty. -/
theorem start_cycle_aborts :
    Daemon.Start [⟨"A", ["B"], []⟩, ⟨"B", ["A"], []⟩] =
      (some (.cycle ["A", "B", "A"]), []) ∧
    "A" ∈ ["A", "B", "A"] ∧ "B" ∈ ["A", "B", "A"] := by
  refine ⟨by decide, by decide, by decide⟩

/-- C3 at the failing input: with a registry holding the active unit `A`
and the inactive unit `B`, `Isolate(["A"])` builds a transaction with a
mandatory stop job for `B` even though `B` is not active — the source
iterates all of `sys.Units()` without checking `Active()`, contradicting
the claim (and the source's own doc comment).  The positive part of the
claim's scenario — all of `A`, `B`, `C` active gives stop jobs for `B`
and `C` and none for `A` — does hold. -/
theorem isolate_stops_inactive :
    Isolate [⟨"A", true, [], []⟩, ⟨"B", false, [], []⟩] ["A"] =
      .ok [("B", JobType.stop, true), ("A", JobType.start, true)] ∧
    List.lookup ("B") [("B", JobType.stop, true), ("A", JobType.start, true)] =
      some (JobType.stop, true) ∧
    IUnit.active ⟨"B", false, [], []⟩ = false ∧
    Isolate [⟨"A", true, [], []⟩, ⟨"B", true, [], []⟩, ⟨"C", true, [], []⟩] ["A"] =
      .ok [("C", JobType.stop, true), ("B", JobType.stop, true),
        ("A", JobType.start, true)] := by
  refine ⟨by decide, by decide, by decide, by decide⟩

/-! ## Theorems: the ordering graph -/

/-- Every predecessor recorded in `g.before` is a unit of the
transaction. -/
theorem predsOf_subset (units : List GUnit) (n : String) :
    ∀ d ∈ predsOf units n, d ∈ unitNames units := by
  intro d hd
  unfold predsOf at hd
  cases hf : units.find? (fun w => w.name == n) with
  | none => rw [hf] at hd; exact absurd hd (List.not_mem_nil d)
  | some v =>
    rw [hf] at hd
    unfold preds at hd
    rw [List.mem_dedup] at hd
    rcases List.mem_append.mp hd with h | h
    · exact List.elem_iff.mp ((List.mem_filter.mp h).2)
    · rcases List.mem_map.mp h with ⟨w, hw, rfl⟩
      exact List.mem_map.mpr ⟨w, (List.mem_filter.mp hw).1, rfl⟩

/-- The unfolding equation of `graph.traverse` for positive fuel. -/
theorem Graph.traverse_succ (P : String → List String) (fuel : Nat)
    (visited ordering : List String) (u : String) :
    Graph.traverse P (fuel + 1) visited ordering u =
      (if u ∈ ordering then .ok ordering
      else if u ∈ visited then .error (.cycle [])
      else
        match runDeps (fun ord d => Graph.traverse P fuel (u :: visited) ord d)
            ordering (P u) with
        | .error e => .error e
        | .ok ord => .ok (if u ∈ ord then ord else ord ++ [u])) := rfl

/-- The predecessor loop preserves any invariant its body preserves, only
extends the ordering, and leaves every dependency it processed in the
ordering. -/
theorem runDeps_sound (f : List String → String → Except TErr (List String))
    (Q : List String → Prop) :
    ∀ deps : List String,
      (∀ ord ord' d, d ∈ deps → Q ord → f ord d = .ok ord' →
        Q ord' ∧ d ∈ ord' ∧ ord ⊆ ord') →
      ∀ ord ordl, Q ord → runDeps f ord deps = .ok ordl →
        Q ordl ∧ ord ⊆ ordl ∧ ∀ d ∈ deps, d ∈ ordl := by
  intro deps
  induction deps with
  | nil =>
    intro _ ord ordl hQ hrun
    cases hrun
    exact ⟨hQ, fun x hx => hx, by simp⟩
  | cons d rest ih =>
    intro hf ord ordl hQ hrun
    unfold runDeps at hrun
    cases hfd : f ord d with
    | error e =>
      rw [hfd] at hrun
      cases e <;> simp at hrun
    | ok ord1 =>
      rw [hfd] at hrun
      have h1 := hf ord ord1 d (by simp) hQ hfd
      have h2 := ih (fun o o' x hx hq hfo => hf o o' x (by simp [hx]) hq hfo)
        ord1 ordl h1.1 hrun
      refine ⟨h2.1, fun x hx => h2.2.1 (h1.2.2 hx), ?_⟩
      intro x hx
      rcases List.mem_cons.mp hx with rfl | hx
      · exact h2.2.1 h1.2.1
      · exact h2.2.2 x hx

/-- The predecessor loop succeeds when every iteration succeeds. -/
theorem runDeps_total (f : List String → String → Except TErr (List String)) :
    ∀ deps : List String,
      (∀ ord d, d ∈ deps → ∃ o, f ord d = .ok o) →
      ∀ ord, ∃ o, runDeps f ord deps = .ok o := by
  intro deps
  induction deps with
  | nil => intro _ ord; exact ⟨ord, rfl⟩
  | cons d rest ih =>
    intro hf ord
    obtain ⟨o1, ho1⟩ := hf ord d (by simp)
    obtain ⟨o2, ho2⟩ := ih (fun o x hx => hf o x (by simp [hx])) o1
    exact ⟨o2, by unfold runDeps; rw [ho1]; exact ho2⟩

/-- Soundness of the DFS: a successful `graph.traverse` preserves the
ordering invariant, puts the traversed unit into the ordering, only
extends the ordering, and never outputs an in-progress node. -/
theorem traverse_sound (units : List GUnit) :
    ∀ fuel visited ordering u ord',
      Graph.traverse (predsOf units) fuel visited ordering u = .ok ord' →
      u ∈ unitNames units →
      OrdInv units ordering →
      (∀ w ∈ visited, w ∉ ordering) →
      OrdInv units ord' ∧ u ∈ ord' ∧ ordering ⊆ ord' ∧ ∀ w ∈ visited, w ∉ ord' := by
  intro fuel
  induction fuel with
  | zero =>
    intro visited ordering u ord' h
    exact absurd h (by simp [Graph.traverse])
  | succ fuel ih =>
    intro visited ordering u ord' h hu hinv hdis
    rw [Graph.traverse_succ] at h
    by_cases hord : u ∈ ordering
    · rw [if_pos hord] at h
      cases h
      exact ⟨hinv, hord, fun x hx => hx, hdis⟩
    · rw [if_neg hord] at h
      by_cases hvis : u ∈ visited
      · rw [if_pos hvis] at h
        exact absurd h (by simp)
      · rw [if_neg hvis] at h
        cases hrun : runDeps (fun ord d => Graph.traverse (predsOf units) fuel
            (u :: visited) ord d) ordering (predsOf units u) with
        | error e =>
          rw [hrun] at h
          exact absurd h (by simp)
        | ok ordl =>
          rw [hrun] at h
          dsimp only at h
          -- bundled invariant for the loop
          have hQ : OrdInv units ordering ∧ ∀ w ∈ u :: visited, w ∉ ordering := by
            refine ⟨hinv, ?_⟩
            intro w hw
            rcases List.mem_cons.mp hw with rfl | hw
            · exact hord
            · exact hdis w hw
          have hloop := runDeps_sound
            (fun ord d => Graph.traverse (predsOf units) fuel (u :: visited) ord d)
            (fun ord => OrdInv units ord ∧ ∀ w ∈ u :: visited, w ∉ ord)
            (predsOf units u)
            (by
              intro ord ord' d hd hq hok
              have hr := ih (u :: visited) ord d ord' hok
                (predsOf_subset units u d hd) hq.1 hq.2
              exact ⟨⟨hr.1, hr.2.2.2⟩, hr.2.1, hr.2.2.1⟩)
            ordering ordl hQ hrun
          have hunotin : u ∉ ordl := hloop.1.2 u (by simp)
          rw [if_neg hunotin] at h
          cases h
          -- now prove the four conclusions for ordl ++ [u]
          obtain ⟨⟨hnd, hnames, hedges⟩, hwdis⟩ := hloop.1
          refine ⟨⟨?_, ?_, ?_⟩, ?_, ?_, ?_⟩
          · exact (List.nodup_append.mpr ⟨hnd, List.nodup_singleton u,
              by simp [List.Disjoint]; intro x hx hxu; exact hunotin (hxu ▸ hx)⟩)
          · intro x hx
            rcases List.mem_append.mp hx with hx | hx
            · exact hnames x hx
            · rw [List.mem_singleton.mp hx]; exact hu
          · intro v hv d hd
            rcases List.mem_append.mp hv with hv | hv
            · exact (hedges v hv d hd).trans (List.sublist_append_left ordl [u])
            · rw [List.mem_singleton.mp hv] at hd ⊢
              have hdl : d ∈ ordl := hloop.2.2 d hd
              exact List.Sublist.append (List.singleton_sublist.mpr hdl)
                (List.Sublist.refl [u])
          · exact List.mem_append.mpr (Or.inr (by simp))
          · intro x hx
            exact List.mem_append.mpr (Or.inl (hloop.2.1 hx))
          · intro w hw
            intro hcon
            rcases List.mem_append.mp hcon with hcon | hcon
            · exact hwdis w (by simp [hw]) hcon
            · rw [List.mem_singleton.mp hcon] at hw
              exact hvis hw

/-- Termination of the DFS on acyclic inputs: with the declared
runs-before relation acyclic, `graph.traverse` succeeds whenever the
in-progress chain above the current unit is consistent and the fuel
covers the units not yet in progress.  In particular the embedded fuel is
never the reason a traversal fails. -/
theorem traverse_total (units : List GUnit)
    (hacyc : ∀ n, ¬ Relation.TransGen (gEdge units) n n) :
    ∀ fuel visited u,
      u ∈ unitNames units →
      visited.Nodup →
      (∀ w ∈ visited, w ∈ unitNames units) →
      (∀ w ∈ visited, Relation.TransGen (gEdge units) u w) →
      (unitNames units).length + 1 ≤ fuel + visited.length →
      ∀ ordering, ∃ ord',
        Graph.traverse (predsOf units) fuel visited ordering u = .ok ord' := by
  intro fuel
  induction fuel with
  | zero =>
    intro visited u hu hnd hsub hch hfuel ordering
    exfalso
    have hle : visited.length ≤ (unitNames units).length :=
      (List.subperm_of_subset hnd hsub).length_le
    omega
  | succ fuel ih =>
    intro visited u hu hnd hsub hch hfuel ordering
    by_cases hord : u ∈ ordering
    · exact ⟨ordering, by rw [Graph.traverse_succ, if_pos hord]⟩
    · by_cases hvis : u ∈ visited
      · exact absurd (hch u hvis) (hacyc u)
      · have hloop := runDeps_total
          (fun ord d => Graph.traverse (predsOf units) fuel (u :: visited) ord d)
          (predsOf units u)
          (by
            intro ord d hd
            refine ih (u :: visited) d (predsOf_subset units u d hd) ?_ ?_ ?_ ?_ ord
            · exact List.nodup_cons.mpr ⟨hvis, hnd⟩
            · intro w hw
              rcases List.mem_cons.mp hw with rfl | hw
              · exact hu
              · exact hsub w hw
            · intro w hw
              rcases List.mem_cons.mp hw with rfl | hw
              · exact Relation.TransGen.single hd
              · exact Relation.TransGen.head hd (hch w hw)
            · simp only [List.length_cons]
              omega)
          ordering
        obtain ⟨ordl, hordl⟩ := hloop
        refine ⟨if u ∈ ordl then ordl else ordl ++ [u], ?_⟩
        rw [Graph.traverse_succ, if_neg hord, if_neg hvis, hordl]

/-- Soundness of `Daemon.order`'s unit loop. -/
theorem orderLoop_sound (units : List GUnit) (fuel : Nat) :
    ∀ pending ordering ord,
      (∀ u ∈ pending, u.name ∈ unitNames units) →
      OrdInv units ordering →
      orderLoop (predsOf units) fuel pending ordering = .ok ord →
      OrdInv units ord ∧ ordering ⊆ ord ∧ ∀ u ∈ pending, u.name ∈ ord := by
  intro pending
  induction pending with
  | nil =>
    intro ordering ord _ hinv h
    cases h
    exact ⟨hinv, fun x hx => hx, by simp⟩
  | cons u rest ih =>
    intro ordering ord hmem hinv h
    unfold orderLoop at h
    cases htr : Graph.traverse (predsOf units) fuel [] ordering u.name with
    | error e =>
      rw [htr] at h
      cases e <;> simp at h
    | ok ord1 =>
      rw [htr] at h
      have h1 := traverse_sound units fuel [] ordering u.name ord1 htr
        (hmem u (by simp)) hinv (by simp)
      have h2 := ih ord1 ord (fun v hv => hmem v (by simp [hv])) h1.1 h
      refine ⟨h2.1, fun x hx => h2.2.1 (h1.2.2.1 hx), ?_⟩
      intro v hv
      rcases List.mem_cons.mp hv with rfl | hv
      · exact h2.2.1 h1.2.1
      · exact h2.2.2 v hv

/-- Totality of `Daemon.order`'s unit loop on acyclic inputs. -/
theorem orderLoop_total (units : List GUnit)
    (hacyc : ∀ n, ¬ Relation.TransGen (gEdge units) n n) (fuel : Nat)
    (hfuel : (unitNames units).length + 1 ≤ fuel) :
    ∀ pending ordering,
      (∀ u ∈ pending, u.name ∈ unitNames units) →
      ∃ ord, orderLoop (predsOf units) fuel pending ordering = .ok ord := by
  intro pending
  induction pending with
  | nil => intro ordering _; exact ⟨ordering, rfl⟩
  | cons u rest ih =>
    intro ordering hmem
    obtain ⟨ord1, hord1⟩ := traverse_total units hacyc fuel [] u.name
      (hmem u (by simp)) List.nodup_nil (by simp) (by simp) (by simpa using hfuel)
      ordering
    obtain ⟨ord, hord⟩ := ih ord1 (fun v hv => hmem v (by simp [hv]))
    exact ⟨ord, by unfold orderLoop; rw [hord1]; exact hord⟩

/-- With unique names (the Go map key set), looking a unit's name up in
the unit list finds that unit. -/
theorem find?_name_eq (units : List GUnit) (hnodup : (unitNames units).Nodup) :
    ∀ v ∈ units, units.find? (fun w => w.name == v.name) = some v := by
  induction units with
  | nil => intro v hv; exact absurd hv (List.not_mem_nil v)
  | cons w rest ih =>
    intro v hv
    have hnd : (unitNames rest).Nodup ∧ w.name ∉ unitNames rest := by
      have := hnodup
      simp only [unitNames, List.map_cons, List.nodup_cons] at this
      exact ⟨this.2, this.1⟩
    rcases List.mem_cons.mp hv with rfl | hv
    · simp [List.find?]
    · have hne : (w.name == v.name) = false := by
        have hvn : v.name ∈ unitNames rest := List.mem_map.mpr ⟨v, hv, rfl⟩
        have : ¬ w.name = v.name := fun hc => hnd.2 (hc ▸ hvn)
        simp [this]
      simp only [List.find?, hne]
      exact ih hnd.1 v hv

/-- A declared edge between transaction units — `v` declares `after u`,
or `u` declares `before v` — lands in `g.before[v]`. -/
theorem mem_predsOf (units : List GUnit) (hnodup : (unitNames units).Nodup)
    (u v : GUnit) (hu : u ∈ units) (hv : v ∈ units)
    (hedge : u.name ∈ v.after ∨ v.name ∈ u.before) :
    gEdge units u.name v.name := by
  unfold gEdge predsOf
  rw [find?_name_eq units hnodup v hv]
  unfold preds
  rw [List.mem_dedup, List.mem_append]
  rcases hedge with h | h
  · left
    refine List.mem_filter.mpr ⟨h, ?_⟩
    exact List.elem_iff.mpr (List.mem_map.mpr ⟨u, hu, rfl⟩)
  · right
    exact List.mem_map.mpr ⟨u, List.mem_filter.mpr ⟨hu, List.elem_iff.mpr h⟩, rfl⟩

/-- C1: for every transaction whose units' `after`/`before` declarations,
restricted to the included set, are acyclic, `Daemon.order` returns a
duplicate-free sequence that contains every included unit, consists only
of included units, and lists `u` before `v` for every declared edge
u-runs-before-v (`v` declares `after u`, or `u` declares `before v`);
declarations naming units outside the set impose no constraint, since
`g.before` is built from the intersections with the job set. -/
theorem order_correct (units : List GUnit)
    (hnodup : (unitNames units).Nodup)
    (hacyc : ∀ n, ¬ Relation.TransGen (gEdge units) n n) :
    ∃ ord, Daemon.order units = .ok ord ∧ ord.Nodup ∧
      (∀ u ∈ units, u.name ∈ ord) ∧
      (∀ x ∈ ord, x ∈ unitNames units) ∧
      ∀ u v, u ∈ units → v ∈ units →
        (u.name ∈ v.after ∨ v.name ∈ u.before) →
        List.Sublist [u.name, v.name] ord := by
  have hmem : ∀ u ∈ units, u.name ∈ unitNames units :=
    fun u hu => List.mem_map.mpr ⟨u, hu, rfl⟩
  have hfuel : (unitNames units).length + 1 ≤ units.length + 1 := by
    simp [unitNames]
  obtain ⟨ord, hord⟩ := orderLoop_total units hacyc (units.length + 1) hfuel units [] hmem
  have hsound := orderLoop_sound units (units.length + 1) units [] ord hmem
    ⟨List.nodup_nil, by simp, by simp⟩ hord
  obtain ⟨⟨hnd, hnames, hedges⟩, _, hall⟩ := hsound
  refine ⟨ord, hord, hnd, hall, hnames, ?_⟩
  intro u v hu hv hedge
  exact hedges v.name (hall v hv) u.name (mem_predsOf units hnodup u v hu hv hedge)

/-- C1 instantiated: the two-unit edgeless transaction is acyclic and is
ordered completely. -/
theorem order_correct_witness :
    ∃ ord, Daemon.order [⟨"A", [], []⟩, ⟨"B", [], []⟩] = .ok ord ∧ ord.Nodup ∧
      (∀ u ∈ [(⟨"A", [], []⟩ : GUnit), ⟨"B", [], []⟩], u.name ∈ ord) ∧
      (∀ x ∈ ord, x ∈ unitNames [(⟨"A", [], []⟩ : GUnit), ⟨"B", [], []⟩]) ∧
      ∀ u v, u ∈ [(⟨"A", [], []⟩ : GUnit), ⟨"B", [], []⟩] →
        v ∈ [(⟨"A", [], []⟩ : GUnit), ⟨"B", [], []⟩] →
        (u.name ∈ v.after ∨ v.name ∈ u.before) →
        List.Sublist [u.name, v.name] ord := by
  apply order_correct
  · decide
  · intro n hn
    have hE : ∀ a b : String, ¬ gEdge [(⟨"A", [], []⟩ : GUnit), ⟨"B", [], []⟩] a b := by
      intro a b hab
      have hb : predsOf [(⟨"A", [], []⟩ : GUnit), ⟨"B", [], []⟩] b = [] := by
        unfold predsOf
        cases hf : List.find? (fun w => w.name == b)
            [(⟨"A", [], []⟩ : GUnit), ⟨"B", [], []⟩] with
        | none => rfl
        | some v =>
          have hv := List.mem_of_find?_eq_some hf
          rcases List.mem_cons.mp hv with rfl | hv
          · decide
          · rcases List.mem_cons.mp hv with rfl | hv
            · decide
            · exact absurd hv (List.not_mem_nil v)
      unfold gEdge at hab
      rw [hb] at hab
      exact absurd hab (List.not_mem_nil a)
    cases hn with
    | single h => exact hE _ _ h
    | tail _ h => exact hE _ _ h
